import Mathlib

/-!
Shallow embedding of the vacation-period search and ranking engine of
`src/App.tsx` (the `VacationCalculator` component).

Calendar dates are represented as epoch-day numbers (`Int`, day 0 = 1970-01-01).
The JavaScript `Date` mutation steps (`setDate(± 1)`) become `± 1` on the day
number, and the normalize-to-midnight comparisons become plain equality of day
numbers.  The two unbounded `while` loops of the window expansion are embedded
as fuel-indexed recursions; a computable fuel that provably suffices (a Monday
beyond every holiday is a workday) is supplied at the top level, and
fuel-independence is proved below.
-/

namespace VacationCalc

/-- Day of the week of an epoch-day number (day 0 = 1970-01-01, a Thursday),
in the JavaScript `Date.getDay` convention: 0 = Sunday, …, 6 = Saturday. -/
def dayOfWeek (d : Int) : Int := (d + 4) % 7

/-- Epoch-day number of a Gregorian calendar date (valid for years ≥ 1),
used to state the concrete scenarios. -/
def daysFromCivil (y m d : Nat) : Int :=
  let yAdj := if m ≤ 2 then y - 1 else y
  let era := yAdj / 400
  let yoe := yAdj % 400
  let mp := if 2 < m then m - 3 else m + 9
  let doy := (153 * mp + 2) / 5 + d - 1
  let doe := yoe * 365 + yoe / 4 - yoe / 100 + doy
  (era * 146097 + doe : Int) - 719468

/-- A single holiday day (the `Holiday` interface of `App.tsx`), as produced by
flattening the provider spans. -/
structure Holiday where
  date : Int
  name : String
deriving DecidableEq

/-- One entry returned by the external holiday provider for one year:
a span of days `[startDay, endDay)`, end exclusive, with a display name. -/
structure HolidaySpan where
  startDay : Int
  endDay : Int
  name : String
deriving DecidableEq

/-- `n` consecutive days starting at `lo`. -/
def intRangeAux : Nat → Int → List Int
  | 0, _ => []
  | n + 1, lo => lo :: intRangeAux n (lo + 1)

/-- The list `[lo, lo + 1, …, hi]` (empty when `hi < lo`); models the
`for (year = lo; year <= hi; year++)` and similar ascending loops. -/
def intRange (lo hi : Int) : List Int :=
  intRangeAux (hi - lo + 1).toNat lo

/-- Days covered by a provider span: `s, s + 1, …, e − 1`
(the `while (currentDate < end)` push loop in the `holidays` memo). -/
def spanDays (s e : Int) : List Int :=
  intRangeAux (e - s).toNat s

/-- The `holidays` memo of `App.tsx`: for each year from `yearFrom` to `yearTo`,
flatten every span returned by the provider into one `Holiday` record per
covered day, carrying the span's name. -/
def buildHolidays (provider : Int → List HolidaySpan) (yearFrom yearTo : Int) :
    List Holiday :=
  (intRange yearFrom yearTo).flatMap (fun y =>
    (provider y).flatMap (fun sp =>
      (spanDays sp.startDay sp.endDay).map (fun d => { date := d, name := sp.name })))

/-- `isHoliday` of `App.tsx`: the (normalized) day equals the (normalized) day of
some holiday record. -/
def isHoliday (hols : List Holiday) (d : Int) : Bool :=
  hols.any (fun h => h.date == d)

/-- `isWeekendOrHoliday` of `App.tsx`. -/
def isWeekendOrHoliday (hols : List Holiday) (d : Int) : Bool :=
  dayOfWeek d == 0 || dayOfWeek d == 6 || isHoliday hols d

/-- Loop of `calculateExtraStartDate`: with `fuel` probes remaining, walk backward
from `d` while the day immediately before is a weekend or holiday. -/
def extraStartAux (hols : List Holiday) : Nat → Int → Int
  | 0, d => d
  | fuel + 1, d =>
    if isWeekendOrHoliday hols (d - 1) then extraStartAux hols fuel (d - 1) else d

/-- Loop of `calculateExtraEndDate`: walk forward from `d` while the day
immediately after is a weekend or holiday. -/
def extraEndAux (hols : List Holiday) : Nat → Int → Int
  | 0, d => d
  | fuel + 1, d =>
    if isWeekendOrHoliday hols (d + 1) then extraEndAux hols fuel (d + 1) else d

/-- Smallest holiday date in the list (default `dflt` for the empty list). -/
def holsMin (hols : List Holiday) (dflt : Int) : Int :=
  hols.foldr (fun h m => min h.date m) dflt

/-- Largest holiday date in the list (default `dflt` for the empty list). -/
def holsMax (hols : List Holiday) (dflt : Int) : Int :=
  hols.foldr (fun h m => max h.date m) dflt

/-- The latest Monday `≤ a`. -/
def mondayOnOrBefore (a : Int) : Int := a - ((a + 4) % 7 + 6) % 7

/-- The earliest Monday `≥ a`. -/
def mondayOnOrAfter (a : Int) : Int := a + (8 - (a + 4) % 7) % 7

/-- A probe budget that provably reaches a workday below `d`: enough steps to
reach a Monday lying strictly below every holiday. -/
def startFuel (hols : List Holiday) (d : Int) : Nat :=
  (d - 1 - mondayOnOrBefore (holsMin hols d - 1)).toNat + 1

/-- A probe budget that provably reaches a workday above `d`. -/
def endFuel (hols : List Holiday) (d : Int) : Nat :=
  (mondayOnOrAfter (holsMax hols d + 1) - (d + 1)).toNat + 1

/-- `calculateExtraStartDate` of `App.tsx`: extend the vacation start backward
over the maximal contiguous run of weekends/holidays. -/
def calculateExtraStartDate (hols : List Holiday) (vacationStartDate : Int) : Int :=
  extraStartAux hols (startFuel hols vacationStartDate) vacationStartDate

/-- `calculateExtraEndDate` of `App.tsx`: extend the vacation end forward
over the maximal contiguous run of weekends/holidays. -/
def calculateExtraEndDate (hols : List Holiday) (vacationEndDate : Int) : Int :=
  extraEndAux hols (endFuel hols vacationEndDate) vacationEndDate

/-- The `VacationPeriod` record of `App.tsx`: `startDate`/`endDate` are the
extended window, `usedStartDate`/`usedEndDate` the core vacation window. -/
structure VacationPeriod where
  startDate : Int
  endDate : Int
  usedStartDate : Int
  usedEndDate : Int
  daysCount : Int
deriving DecidableEq

/-- `checkForOverlaps` of `App.tsx`: buffer the window by `minGap` on both sides
and test intersection with any existing period. -/
def checkForOverlaps (startD endD : Int) (existingPeriods : List VacationPeriod)
    (minGapBetweenPeriods : Int) : Bool :=
  existingPeriods.any (fun p =>
    decide (startD - minGapBetweenPeriods ≤ p.endDate) &&
    decide (endD + minGapBetweenPeriods ≥ p.startDate))

/-- `calculateTotalDaysOff` of `App.tsx`: inclusive length of the extended window. -/
def calculateTotalDaysOff (p : VacationPeriod) : Int :=
  p.endDate - p.startDate + 1

/-- Scan loop of `findBestAvailablePeriods`: iterate the current day while it is
at most `maxSearchDate`; on a workday start whose core end fits, expand, run the
overlap check, and collect the candidate with its total days off; `break` (return
with no further collection) the first time a workday start's core end exceeds
`maxSearchDate`. -/
def findPeriodsAux (hols : List Holiday) (maxSearchDate : Int)
    (existingPeriods : List VacationPeriod) (daysCount minGap : Int) :
    Nat → Int → List (VacationPeriod × Int)
  | 0, _ => []
  | fuel + 1, d =>
    if d ≤ maxSearchDate then
      if dayOfWeek d != 0 && dayOfWeek d != 6 && !isHoliday hols d then
        let vacationEndDate := d + daysCount - 1
        if vacationEndDate > maxSearchDate then []
        else
          let extraStartDate := calculateExtraStartDate hols d
          let extraEndDate := calculateExtraEndDate hols vacationEndDate
          if checkForOverlaps extraStartDate extraEndDate existingPeriods minGap then
            findPeriodsAux hols maxSearchDate existingPeriods daysCount minGap fuel (d + 1)
          else
            let period : VacationPeriod :=
              { startDate := extraStartDate, endDate := extraEndDate,
                usedStartDate := d, usedEndDate := vacationEndDate,
                daysCount := daysCount }
            (period, calculateTotalDaysOff period) ::
              findPeriodsAux hols maxSearchDate existingPeriods daysCount minGap fuel (d + 1)
      else findPeriodsAux hols maxSearchDate existingPeriods daysCount minGap fuel (d + 1)
    else []

/-- Insert `a` into `l` before the first element it may precede.  Used to model
the (stable, ES2019) `Array.prototype.sort` of the source. -/
def orderedInsert {α : Type} (le : α → α → Bool) (a : α) : List α → List α
  | [] => [a]
  | b :: l => if le a b then a :: b :: l else b :: orderedInsert le a l

/-- Stable insertion sort with a boolean "may come before" relation, modelling
the JavaScript `Array.prototype.sort` with a consistent comparator. -/
def stableSort {α : Type} (le : α → α → Bool) : List α → List α
  | [] => []
  | a :: l => orderedInsert le a (stableSort le l)

/-- The per-day-count sort comparator of `findBestAvailablePeriods`, as a
"may come before" relation: larger `totalDaysOff` first; ties broken by absolute
distance of the core start from the search start. -/
def candidateLE (searchStart : Int) (a b : VacationPeriod × Int) : Bool :=
  if a.2 = b.2 then
    decide ((a.1.usedStartDate - searchStart).natAbs ≤ (b.1.usedStartDate - searchStart).natAbs)
  else decide (b.2 < a.2)

/-- `findBestAvailablePeriods` of `App.tsx`.  The thrown
`"Could not find any valid vacation period"` error is embedded as `none`. -/
def findBestAvailablePeriods (hols : List Holiday) (startDate endDate : Int)
    (existingPeriods : List VacationPeriod) (daysCount minGap : Int) :
    Option (List VacationPeriod) :=
  let candidatePeriods :=
    findPeriodsAux hols endDate existingPeriods daysCount minGap
      ((endDate - startDate + 1).toNat) startDate
  if candidatePeriods.isEmpty then none
  else some ((stableSort (candidateLE startDate) candidatePeriods).map (fun c => c.1))

/-- The multi-day-count sweep of `handleCalculate`: for each day count from
`minVacationDays` to `maxVacationDays`, run the search with no existing periods
and `minGap = 0`; a day count whose search signals no candidate contributes
nothing and the sweep continues. -/
def allCandidatePeriods (hols : List Holiday) (startDate endDate : Int)
    (minVacationDays maxVacationDays : Int) : List VacationPeriod :=
  (intRange minVacationDays maxVacationDays).flatMap (fun vacationDays =>
    match findBestAvailablePeriods hols startDate endDate [] vacationDays 0 with
    | none => []
    | some ps => ps)

/-- `extraDays` as computed by the final filter and sort of `handleCalculate`:
total days off of the extended window minus the spent vacation days. -/
def extraDays (p : VacationPeriod) : Int :=
  calculateTotalDaysOff p - p.daysCount

/-- The final sort comparator of `handleCalculate`, as a "may come before"
relation: larger `extraDays` first; ties broken by core start date ascending. -/
def rankedLE (a b : VacationPeriod) : Bool :=
  if extraDays a = extraDays b then decide (a.usedStartDate ≤ b.usedStartDate)
  else decide (extraDays b < extraDays a)

/-- `handleCalculate` of `App.tsx` (its pure result, i.e. the list stored by
`setVacationPeriods`): sweep all day counts, drop periods with no extra days,
and sort by extra days descending, ties by start date ascending. -/
def handleCalculate (hols : List Holiday) (startDate endDate : Int)
    (minVacationDays maxVacationDays : Int) : List VacationPeriod :=
  stableSort rankedLE
    ((allCandidatePeriods hols startDate endDate minVacationDays maxVacationDays).filter
      (fun p => decide (0 < extraDays p)))

/-! ### Basic lemmas about ranges and day classification -/

theorem mem_intRangeAux {x : Int} :
    ∀ (n : Nat) (lo : Int), x ∈ intRangeAux n lo ↔ lo ≤ x ∧ x < lo + n := by
  intro n
  induction n with
  | zero => intro lo; simp [intRangeAux]
  | succ n ih =>
    intro lo
    simp only [intRangeAux, List.mem_cons, ih]
    omega

theorem mem_intRange {lo hi x : Int} : x ∈ intRange lo hi ↔ lo ≤ x ∧ x ≤ hi := by
  rw [intRange, mem_intRangeAux]
  omega

theorem intRange_cons {lo hi : Int} (h : lo ≤ hi) :
    intRange lo hi = lo :: intRange (lo + 1) hi := by
  have h1 : (hi - lo + 1).toNat = (hi - (lo + 1) + 1).toNat + 1 := by omega
  rw [intRange, h1, intRangeAux, intRange]

theorem mem_spanDays {s e x : Int} : x ∈ spanDays s e ↔ s ≤ x ∧ x < e := by
  rw [spanDays, mem_intRangeAux]
  omega

theorem holsMin_le {hols : List Holiday} {dflt : Int} :
    (∀ h ∈ hols, holsMin hols dflt ≤ h.date) ∧ holsMin hols dflt ≤ dflt := by
  induction hols with
  | nil => simp [holsMin]
  | cons a l ih =>
    refine ⟨?_, ?_⟩
    · intro h hmem
      rcases List.mem_cons.1 hmem with rfl | hmem
      · simp only [holsMin, List.foldr_cons]
        exact min_le_left _ _
      · calc holsMin (a :: l) dflt ≤ holsMin l dflt := min_le_right _ _
          _ ≤ h.date := ih.1 h hmem
    · calc holsMin (a :: l) dflt ≤ holsMin l dflt := min_le_right _ _
        _ ≤ dflt := ih.2

theorem le_holsMax {hols : List Holiday} {dflt : Int} :
    (∀ h ∈ hols, h.date ≤ holsMax hols dflt) ∧ dflt ≤ holsMax hols dflt := by
  induction hols with
  | nil => simp [holsMax]
  | cons a l ih =>
    refine ⟨?_, ?_⟩
    · intro h hmem
      rcases List.mem_cons.1 hmem with rfl | hmem
      · simp only [holsMax, List.foldr_cons]
        exact le_max_left _ _
      · calc h.date ≤ holsMax l dflt := ih.1 h hmem
          _ ≤ holsMax (a :: l) dflt := le_max_right _ _
    · calc dflt ≤ holsMax l dflt := ih.2
        _ ≤ holsMax (a :: l) dflt := le_max_right _ _

theorem mondayOnOrBefore_dow (a : Int) : dayOfWeek (mondayOnOrBefore a) = 1 := by
  simp only [dayOfWeek, mondayOnOrBefore]
  omega

theorem mondayOnOrBefore_le (a : Int) : mondayOnOrBefore a ≤ a := by
  simp only [mondayOnOrBefore]
  omega

theorem mondayOnOrAfter_dow (a : Int) : dayOfWeek (mondayOnOrAfter a) = 1 := by
  simp only [dayOfWeek, mondayOnOrAfter]
  omega

theorem le_mondayOnOrAfter (a : Int) : a ≤ mondayOnOrAfter a := by
  simp only [mondayOnOrAfter]
  omega

/-- A Monday lying strictly outside the holiday set is a workday. -/
theorem isWeekendOrHoliday_eq_false_of_monday (hols : List Holiday) {x : Int}
    (hdow : dayOfWeek x = 1) (hout : ∀ h ∈ hols, h.date ≠ x) :
    isWeekendOrHoliday hols x = false := by
  simp only [isWeekendOrHoliday, isHoliday, Bool.or_eq_false_iff, beq_eq_false_iff_ne,
    ne_eq, List.any_eq_false, decide_eq_true_eq]
  refine ⟨⟨by omega, by omega⟩, ?_⟩
  intro h hmem
  simp only [beq_iff_eq]
  exact hout h hmem

/-! ### The backward/forward expansion loops -/

theorem extraStartAux_le (hols : List Holiday) :
    ∀ (n : Nat) (d : Int), extraStartAux hols n d ≤ d := by
  intro n
  induction n with
  | zero => intro d; simp [extraStartAux]
  | succ n ih =>
    intro d
    rw [extraStartAux]
    split
    · calc extraStartAux hols n (d - 1) ≤ d - 1 := ih (d - 1)
        _ ≤ d := by omega
    · exact le_refl d

theorem le_extraEndAux (hols : List Holiday) :
    ∀ (n : Nat) (d : Int), d ≤ extraEndAux hols n d := by
  intro n
  induction n with
  | zero => intro d; simp [extraEndAux]
  | succ n ih =>
    intro d
    rw [extraEndAux]
    split
    · calc d ≤ d + 1 := by omega
        _ ≤ extraEndAux hols n (d + 1) := ih (d + 1)
    · exact le_refl d

/-- Every day skipped over by the backward walk is a weekend or holiday. -/
theorem extraStartAux_between (hols : List Holiday) :
    ∀ (n : Nat) (d x : Int), extraStartAux hols n d ≤ x → x < d →
      isWeekendOrHoliday hols x = true := by
  intro n
  induction n with
  | zero =>
    intro d x h1 h2
    rw [extraStartAux] at h1
    omega
  | succ n ih =>
    intro d x h1 h2
    rw [extraStartAux] at h1
    by_cases hg : isWeekendOrHoliday hols (d - 1) = true
    · rw [if_pos hg] at h1
      rcases eq_or_lt_of_le (show x ≤ d - 1 by omega) with heq | hlt
      · rw [heq]; exact hg
      · exact ih (d - 1) x h1 hlt
    · rw [if_neg hg] at h1
      omega

/-- Every day skipped over by the forward walk is a weekend or holiday. -/
theorem extraEndAux_between (hols : List Holiday) :
    ∀ (n : Nat) (d x : Int), d < x → x ≤ extraEndAux hols n d →
      isWeekendOrHoliday hols x = true := by
  intro n
  induction n with
  | zero =>
    intro d x h1 h2
    rw [extraEndAux] at h2
    omega
  | succ n ih =>
    intro d x h1 h2
    rw [extraEndAux] at h2
    by_cases hg : isWeekendOrHoliday hols (d + 1) = true
    · rw [if_pos hg] at h2
      rcases eq_or_lt_of_le (show d + 1 ≤ x by omega) with heq | hlt
      · rw [← heq]; exact hg
      · exact ih (d + 1) x hlt h2
    · rw [if_neg hg] at h2
      omega

/-- If some probe within the fuel budget is a workday, the backward walk stops at
a position whose predecessor is a workday (the loop's exit condition holds). -/
theorem extraStartAux_exit (hols : List Holiday) :
    ∀ (n : Nat) (d : Int),
      (∃ k : Nat, k < n ∧ isWeekendOrHoliday hols (d - 1 - k) = false) →
      isWeekendOrHoliday hols (extraStartAux hols n d - 1) = false := by
  intro n
  induction n with
  | zero =>
    rintro d ⟨k, hk, _⟩
    omega
  | succ n ih =>
    rintro d ⟨k, hk, hf⟩
    rw [extraStartAux]
    by_cases hg : isWeekendOrHoliday hols (d - 1) = true
    · rw [if_pos hg]
      apply ih
      have hk0 : k ≠ 0 := by
        rintro rfl
        rw [show d - 1 - ((0 : Nat) : Int) = d - 1 by omega, hg] at hf
        cases hf
      refine ⟨k - 1, by omega, ?_⟩
      rw [show d - 1 - 1 - ((k - 1 : Nat) : Int) = d - 1 - (k : Int) by omega]
      exact hf
    · rw [if_neg hg]
      rw [Bool.not_eq_true] at hg
      exact hg

theorem extraEndAux_exit (hols : List Holiday) :
    ∀ (n : Nat) (d : Int),
      (∃ k : Nat, k < n ∧ isWeekendOrHoliday hols (d + 1 + k) = false) →
      isWeekendOrHoliday hols (extraEndAux hols n d + 1) = false := by
  intro n
  induction n with
  | zero =>
    rintro d ⟨k, hk, _⟩
    omega
  | succ n ih =>
    rintro d ⟨k, hk, hf⟩
    rw [extraEndAux]
    by_cases hg : isWeekendOrHoliday hols (d + 1) = true
    · rw [if_pos hg]
      apply ih
      have hk0 : k ≠ 0 := by
        rintro rfl
        rw [show d + 1 + ((0 : Nat) : Int) = d + 1 by omega, hg] at hf
        cases hf
      refine ⟨k - 1, by omega, ?_⟩
      rw [show d + 1 + 1 + ((k - 1 : Nat) : Int) = d + 1 + (k : Int) by omega]
      exact hf
    · rw [if_neg hg]
      rw [Bool.not_eq_true] at hg
      exact hg

/-- Once the loop has exited within its fuel budget, extra fuel does not change
the result: the walk has reached its fixed point. -/
theorem extraStartAux_stable (hols : List Holiday) :
    ∀ (n : Nat) (d : Int),
      isWeekendOrHoliday hols (extraStartAux hols n d - 1) = false →
      ∀ m : Nat, extraStartAux hols (n + m) d = extraStartAux hols n d := by
  intro n
  induction n with
  | zero =>
    intro d hx m
    rw [extraStartAux] at hx ⊢
    cases m with
    | zero => rfl
    | succ m =>
      rw [Nat.zero_add, extraStartAux, if_neg (by rw [hx]; exact Bool.false_ne_true)]
  | succ n ih =>
    intro d hx m
    rw [extraStartAux] at hx ⊢
    by_cases hg : isWeekendOrHoliday hols (d - 1) = true
    · rw [if_pos hg] at hx ⊢
      rw [show n + 1 + m = (n + m) + 1 by omega, extraStartAux, if_pos hg]
      exact ih (d - 1) hx m
    · rw [if_neg hg] at hx ⊢
      rw [show n + 1 + m = (n + m) + 1 by omega, extraStartAux, if_neg hg]

theorem extraEndAux_stable (hols : List Holiday) :
    ∀ (n : Nat) (d : Int),
      isWeekendOrHoliday hols (extraEndAux hols n d + 1) = false →
      ∀ m : Nat, extraEndAux hols (n + m) d = extraEndAux hols n d := by
  intro n
  induction n with
  | zero =>
    intro d hx m
    rw [extraEndAux] at hx ⊢
    cases m with
    | zero => rfl
    | succ m =>
      rw [Nat.zero_add, extraEndAux, if_neg (by rw [hx]; exact Bool.false_ne_true)]
  | succ n ih =>
    intro d hx m
    rw [extraEndAux] at hx ⊢
    by_cases hg : isWeekendOrHoliday hols (d + 1) = true
    · rw [if_pos hg] at hx ⊢
      rw [show n + 1 + m = (n + m) + 1 by omega, extraEndAux, if_pos hg]
      exact ih (d + 1) hx m
    · rw [if_neg hg] at hx ⊢
      rw [show n + 1 + m = (n + m) + 1 by omega, extraEndAux, if_neg hg]

/-- The fuel supplied by `startFuel` always contains a workday probe. -/
theorem startFuel_exit (hols : List Holiday) (d : Int) :
    ∃ k : Nat, k < startFuel hols d ∧
      isWeekendOrHoliday hols (d - 1 - k) = false := by
  set x := mondayOnOrBefore (holsMin hols d - 1) with hx
  have hxle : x ≤ holsMin hols d - 1 := mondayOnOrBefore_le _
  have hxd : x ≤ d - 1 := by
    have := (@holsMin_le hols d).2
    omega
  refine ⟨(d - 1 - x).toNat, by rw [startFuel, ← hx]; omega, ?_⟩
  rw [show d - 1 - ((d - 1 - x).toNat : Int) = x by omega]
  refine isWeekendOrHoliday_eq_false_of_monday hols (mondayOnOrBefore_dow _) ?_
  intro h hmem
  have := (@holsMin_le hols d).1 h hmem
  omega

/-- The fuel supplied by `endFuel` always contains a workday probe. -/
theorem endFuel_exit (hols : List Holiday) (d : Int) :
    ∃ k : Nat, k < endFuel hols d ∧
      isWeekendOrHoliday hols (d + 1 + k) = false := by
  set x := mondayOnOrAfter (holsMax hols d + 1) with hx
  have hxge : holsMax hols d + 1 ≤ x := le_mondayOnOrAfter _
  have hxd : d + 1 ≤ x := by
    have := (@le_holsMax hols d).2
    omega
  refine ⟨(x - (d + 1)).toNat, by rw [endFuel, ← hx]; omega, ?_⟩
  rw [show d + 1 + ((x - (d + 1)).toNat : Int) = x by omega]
  refine isWeekendOrHoliday_eq_false_of_monday hols (mondayOnOrAfter_dow _) ?_
  intro h hmem
  have := (@le_holsMax hols d).1 h hmem
  omega

/-- The day immediately before the extended start is a workday. -/
theorem calculateExtraStartDate_exit (hols : List Holiday) (d : Int) :
    isWeekendOrHoliday hols (calculateExtraStartDate hols d - 1) = false :=
  extraStartAux_exit hols _ d (startFuel_exit hols d)

/-- The day immediately after the extended end is a workday. -/
theorem calculateExtraEndDate_exit (hols : List Holiday) (d : Int) :
    isWeekendOrHoliday hols (calculateExtraEndDate hols d + 1) = false :=
  extraEndAux_exit hols _ d (endFuel_exit hols d)

theorem calculateExtraStartDate_le (hols : List Holiday) (d : Int) :
    calculateExtraStartDate hols d ≤ d :=
  extraStartAux_le hols _ d

theorem le_calculateExtraEndDate (hols : List Holiday) (d : Int) :
    d ≤ calculateExtraEndDate hols d :=
  le_extraEndAux hols _ d

theorem calculateExtraStartDate_between (hols : List Holiday) (d x : Int)
    (h1 : calculateExtraStartDate hols d ≤ x) (h2 : x < d) :
    isWeekendOrHoliday hols x = true :=
  extraStartAux_between hols _ d x h1 h2

theorem calculateExtraEndDate_between (hols : List Holiday) (d x : Int)
    (h1 : d < x) (h2 : x ≤ calculateExtraEndDate hols d) :
    isWeekendOrHoliday hols x = true :=
  extraEndAux_between hols _ d x h1 h2

/-! ### The stable sort -/

theorem orderedInsert_perm {α : Type} (le : α → α → Bool) (a : α) :
    ∀ l : List α, (orderedInsert le a l).Perm (a :: l) := by
  intro l
  induction l with
  | nil => exact List.Perm.refl _
  | cons b l ih =>
    rw [orderedInsert]
    split
    · exact List.Perm.refl _
    · exact (List.Perm.cons b ih).trans (List.Perm.swap a b l)

theorem stableSort_perm {α : Type} (le : α → α → Bool) :
    ∀ l : List α, (stableSort le l).Perm l := by
  intro l
  induction l with
  | nil => exact List.Perm.refl _
  | cons a l ih =>
    rw [stableSort]
    exact (orderedInsert_perm le a _).trans (List.Perm.cons a ih)

theorem mem_stableSort {α : Type} (le : α → α → Bool) (l : List α) (x : α) :
    x ∈ stableSort le l ↔ x ∈ l :=
  (stableSort_perm le l).mem_iff

theorem orderedInsert_pairwise {α : Type} (le : α → α → Bool)
    (trans : ∀ a b c : α, le a b = true → le b c = true → le a c = true)
    (total : ∀ a b : α, le a b = true ∨ le b a = true) (a : α) :
    ∀ l : List α, l.Pairwise (fun x y => le x y = true) →
      (orderedInsert le a l).Pairwise (fun x y => le x y = true) := by
  intro l
  induction l with
  | nil =>
    intro _
    exact List.pairwise_singleton _ a
  | cons b l ih =>
    intro hp
    rw [orderedInsert]
    rcases List.pairwise_cons.1 hp with ⟨hb, hl⟩
    by_cases hab : le a b = true
    · rw [if_pos hab]
      refine List.pairwise_cons.2 ⟨?_, hp⟩
      intro x hx
      rcases List.mem_cons.1 hx with rfl | hx
      · exact hab
      · exact trans a b x hab (hb x hx)
    · rw [if_neg hab]
      refine List.pairwise_cons.2 ⟨?_, ih hl⟩
      intro x hx
      rcases List.mem_cons.1 ((orderedInsert_perm le a l).mem_iff.1 hx) with rfl | hx
      · rcases total x b with h2 | h2
        · exact absurd h2 hab
        · exact h2
      · exact hb x hx

theorem stableSort_pairwise {α : Type} (le : α → α → Bool)
    (trans : ∀ a b c : α, le a b = true → le b c = true → le a c = true)
    (total : ∀ a b : α, le a b = true ∨ le b a = true) :
    ∀ l : List α, (stableSort le l).Pairwise (fun x y => le x y = true) := by
  intro l
  induction l with
  | nil => exact List.Pairwise.nil
  | cons a l ih =>
    rw [stableSort]
    exact orderedInsert_pairwise le trans total a _ ih

/-! ### The per-day-count scan -/

/-- Shape of every candidate collected by the scan loop: it arises from a workday
start in range whose core window fits, passes the overlap check, and carries the
expanded window together with its total days off. -/
theorem findPeriodsAux_shape (hols : List Holiday) (maxD : Int)
    (ex : List VacationPeriod) (days gap : Int) :
    ∀ (n : Nat) (d : Int) (c : VacationPeriod × Int),
      c ∈ findPeriodsAux hols maxD ex days gap n d →
      ∃ d0 : Int, d ≤ d0 ∧ d0 ≤ maxD ∧
        (dayOfWeek d0 != 0 && dayOfWeek d0 != 6 && !isHoliday hols d0) = true ∧
        d0 + days - 1 ≤ maxD ∧
        checkForOverlaps (calculateExtraStartDate hols d0)
          (calculateExtraEndDate hols (d0 + days - 1)) ex gap = false ∧
        c = ({ startDate := calculateExtraStartDate hols d0,
               endDate := calculateExtraEndDate hols (d0 + days - 1),
               usedStartDate := d0, usedEndDate := d0 + days - 1,
               daysCount := days },
             calculateExtraEndDate hols (d0 + days - 1) -
               calculateExtraStartDate hols d0 + 1) := by
  intro n
  induction n with
  | zero =>
    intro d c h
    rw [findPeriodsAux] at h
    cases h
  | succ n ih =>
    intro d c h
    simp only [findPeriodsAux] at h
    by_cases h1 : d ≤ maxD
    · rw [if_pos h1] at h
      by_cases h2 : (dayOfWeek d != 0 && dayOfWeek d != 6 && !isHoliday hols d) = true
      · rw [if_pos h2] at h
        by_cases h3 : d + days - 1 > maxD
        · rw [if_pos h3] at h
          cases h
        · rw [if_neg h3] at h
          by_cases h4 : checkForOverlaps (calculateExtraStartDate hols d)
              (calculateExtraEndDate hols (d + days - 1)) ex gap = true
          · rw [if_pos h4] at h
            obtain ⟨d0, hle, hrest⟩ := ih (d + 1) c h
            exact ⟨d0, by omega, hrest⟩
          · rw [if_neg h4] at h
            rcases List.mem_cons.1 h with rfl | h
            · refine ⟨d, le_refl d, h1, h2, by omega,
                Bool.not_eq_true _ ▸ h4, ?_⟩
              simp [calculateTotalDaysOff]
            · obtain ⟨d0, hle, hrest⟩ := ih (d + 1) c h
              exact ⟨d0, by omega, hrest⟩
      · rw [if_neg h2] at h
        obtain ⟨d0, hle, hrest⟩ := ih (d + 1) c h
        exact ⟨d0, by omega, hrest⟩
    · rw [if_neg h1] at h
      cases h

/-- With no existing periods, the core starts collected by the scan are exactly
the workdays of the horizon whose core window fits, in ascending order. -/
theorem findPeriodsAux_map_eq (hols : List Holiday) (maxD days gap : Int) :
    ∀ (n : Nat) (d : Int), n = (maxD - d + 1).toNat →
      (findPeriodsAux hols maxD [] days gap n d).map (fun c => c.1.usedStartDate) =
      (intRange d maxD).filter
        (fun x => (dayOfWeek x != 0 && dayOfWeek x != 6 && !isHoliday hols x) &&
                  decide (x + days - 1 ≤ maxD)) := by
  intro n
  induction n with
  | zero =>
    intro d hn
    rw [findPeriodsAux, intRange, show (maxD - d + 1).toNat = 0 from hn.symm, intRangeAux]
    rfl
  | succ n ih =>
    intro d hn
    have hdm : d ≤ maxD := by omega
    rw [intRange_cons hdm, List.filter_cons]
    simp only [findPeriodsAux]
    rw [if_pos hdm]
    by_cases h2 : (dayOfWeek d != 0 && dayOfWeek d != 6 && !isHoliday hols d) = true
    · rw [if_pos h2]
      by_cases h3 : d + days - 1 > maxD
      · rw [if_pos h3]
        rw [if_neg (by rw [h2, decide_eq_false (by omega : ¬(d + days - 1 ≤ maxD))]; simp)]
        rw [List.map_nil]
        symm
        rw [List.filter_eq_nil_iff]
        intro a ha
        rw [mem_intRange] at ha
        simp only [Bool.and_eq_true, decide_eq_true_eq, not_and]
        intro _
        omega
      · rw [if_neg h3]
        rw [if_neg (show ¬(checkForOverlaps (calculateExtraStartDate hols d)
            (calculateExtraEndDate hols (d + days - 1)) [] gap = true) from by
          rw [show checkForOverlaps (calculateExtraStartDate hols d)
            (calculateExtraEndDate hols (d + days - 1)) [] gap = false from rfl]
          exact Bool.false_ne_true)]
        rw [if_pos (by rw [h2, decide_eq_true (by omega : d + days - 1 ≤ maxD)]; rfl)]
        rw [List.map_cons]
        exact congrArg (List.cons d) (ih (d + 1) (by omega))
    · rw [if_neg h2]
      rw [if_neg (by rw [Bool.and_eq_true, not_and]; intro hc; exact absurd hc h2)]
      exact ih (d + 1) (by omega)

/-- Every period returned by `findBestAvailablePeriods` arises from a workday
core start whose core window fits in the horizon. -/
theorem findBestAvailablePeriods_mem (hols : List Holiday) (s e : Int)
    (ex : List VacationPeriod) (days gap : Int) (ps : List VacationPeriod)
    (p : VacationPeriod)
    (hfind : findBestAvailablePeriods hols s e ex days gap = some ps)
    (hp : p ∈ ps) :
    ∃ d0 : Int, s ≤ d0 ∧ d0 ≤ e ∧
      (dayOfWeek d0 != 0 && dayOfWeek d0 != 6 && !isHoliday hols d0) = true ∧
      d0 + days - 1 ≤ e ∧
      p = { startDate := calculateExtraStartDate hols d0,
            endDate := calculateExtraEndDate hols (d0 + days - 1),
            usedStartDate := d0, usedEndDate := d0 + days - 1,
            daysCount := days } := by
  simp only [findBestAvailablePeriods] at hfind
  by_cases hemp : (findPeriodsAux hols e ex days gap (e - s + 1).toNat s).isEmpty
  · rw [if_pos hemp] at hfind
    cases hfind
  · rw [if_neg hemp] at hfind
    obtain rfl := (Option.some.inj hfind).symm
    obtain ⟨c, hc, rfl⟩ := List.mem_map.1 hp
    have hc2 : c ∈ findPeriodsAux hols e ex days gap (e - s + 1).toNat s :=
      (mem_stableSort _ _ c).1 hc
    obtain ⟨d0, _, h2, hw, h3, _, rfl⟩ :=
      findPeriodsAux_shape hols e ex days gap _ s c hc2
    exact ⟨d0, by assumption, h2, hw, h3, rfl⟩

/-- Unfolding of the final comparator as a proposition. -/
theorem rankedLE_iff (a b : VacationPeriod) :
    rankedLE a b = true ↔
      (extraDays b < extraDays a ∨
        (extraDays a = extraDays b ∧ a.usedStartDate ≤ b.usedStartDate)) := by
  rw [rankedLE]
  split <;> simp only [decide_eq_true_eq] <;> omega

theorem rankedLE_trans (a b c : VacationPeriod) :
    rankedLE a b → rankedLE b c → rankedLE a c := by
  intro hab hbc
  rw [rankedLE_iff] at hab hbc ⊢
  omega

theorem rankedLE_total (a b : VacationPeriod) : rankedLE a b || rankedLE b a := by
  rw [Bool.or_eq_true, rankedLE_iff, rankedLE_iff]
  omega

/-! ### Claim theorems -/

/-- Claim C3: for every core window, the expansion yields the maximal contiguous
non-workday extension: every day strictly between an extended boundary and the
core is a weekend or holiday, and the day immediately before the extended start
and the day immediately after the extended end are workdays, so the walk never
skips over an intervening workday. -/
theorem claim_C3 (hols : List Holiday) (coreStart coreEnd : Int) :
    calculateExtraStartDate hols coreStart ≤ coreStart ∧
    coreEnd ≤ calculateExtraEndDate hols coreEnd ∧
    (∀ x : Int, calculateExtraStartDate hols coreStart ≤ x → x < coreStart →
      isWeekendOrHoliday hols x = true) ∧
    (∀ x : Int, coreEnd < x → x ≤ calculateExtraEndDate hols coreEnd →
      isWeekendOrHoliday hols x = true) ∧
    isWeekendOrHoliday hols (calculateExtraStartDate hols coreStart - 1) = false ∧
    isWeekendOrHoliday hols (calculateExtraEndDate hols coreEnd + 1) = false :=
  ⟨calculateExtraStartDate_le hols coreStart,
   le_calculateExtraEndDate hols coreEnd,
   fun x h1 h2 => calculateExtraStartDate_between hols coreStart x h1 h2,
   fun x h1 h2 => calculateExtraEndDate_between hols coreEnd x h1 h2,
   calculateExtraStartDate_exit hols coreStart,
   calculateExtraEndDate_exit hols coreEnd⟩

/-- Witness for C3 at a concrete input: core start Mon 2025-01-06 (epoch day
20094) with no holidays; the skipped day 20093 (Sunday) is a non-workday and
the day before the extended start is a workday. -/
theorem claim_C3_witness :
    isWeekendOrHoliday [] (20093 : Int) = true ∧
    isWeekendOrHoliday [] (calculateExtraStartDate [] 20094 - 1) = false :=
  ⟨(claim_C3 [] 20094 20094).2.2.1 20093 (by decide) (by decide),
   (claim_C3 [] 20094 20094).2.2.2.2.1⟩

/-- Claim C9: both expansion loops terminate for every input date and finite
holiday list: within some finite fuel the loop reaches its exit condition
(the probed day is a workday), and any further fuel leaves the result
unchanged. -/
theorem claim_C9 (hols : List Holiday) (d e : Int) :
    (∃ n : Nat, isWeekendOrHoliday hols (extraStartAux hols n d - 1) = false ∧
      ∀ m : Nat, n ≤ m → extraStartAux hols m d = extraStartAux hols n d) ∧
    (∃ n : Nat, isWeekendOrHoliday hols (extraEndAux hols n e + 1) = false ∧
      ∀ m : Nat, n ≤ m → extraEndAux hols m e = extraEndAux hols n e) := by
  constructor
  · have hexit := extraStartAux_exit hols _ d (startFuel_exit hols d)
    refine ⟨startFuel hols d, hexit, ?_⟩
    intro m hm
    have := extraStartAux_stable hols (startFuel hols d) d hexit (m - startFuel hols d)
    rwa [show startFuel hols d + (m - startFuel hols d) = m by omega] at this
  · have hexit := extraEndAux_exit hols _ e (endFuel_exit hols e)
    refine ⟨endFuel hols e, hexit, ?_⟩
    intro m hm
    have := extraEndAux_stable hols (endFuel hols e) e hexit (m - endFuel hols e)
    rwa [show endFuel hols e + (m - endFuel hols e) = m by omega] at this

/-- Witness for C9 at a concrete input (no holidays, day 0). -/
theorem claim_C9_witness :
    (∃ n : Nat, isWeekendOrHoliday [] (extraStartAux [] n 0 - 1) = false ∧
      ∀ m : Nat, n ≤ m → extraStartAux [] m 0 = extraStartAux [] n 0) ∧
    (∃ n : Nat, isWeekendOrHoliday [] (extraEndAux [] n 0 + 1) = false ∧
      ∀ m : Nat, n ≤ m → extraEndAux [] m 0 = extraEndAux [] n 0) :=
  claim_C9 [] 0 0

/-- Claim C2: every period returned by the search satisfies the window
containment invariants, its core length equals the requested day count, and its
core start is a workday. -/
theorem claim_C2 (hols : List Holiday) (s e : Int) (ex : List VacationPeriod)
    (days gap : Int) (ps : List VacationPeriod) (p : VacationPeriod)
    (hfind : findBestAvailablePeriods hols s e ex days gap = some ps)
    (hp : p ∈ ps) (hdays : 1 ≤ days) :
    p.startDate ≤ p.usedStartDate ∧ p.usedStartDate ≤ p.usedEndDate ∧
    p.usedEndDate ≤ p.endDate ∧
    p.usedEndDate - p.usedStartDate + 1 = p.daysCount ∧
    dayOfWeek p.usedStartDate ≠ 0 ∧ dayOfWeek p.usedStartDate ≠ 6 ∧
    isHoliday hols p.usedStartDate = false := by
  obtain ⟨d0, h1, h2, hw, h3, rfl⟩ :=
    findBestAvailablePeriods_mem hols s e ex days gap ps p hfind hp
  simp only [Bool.and_eq_true, bne_iff_ne, ne_eq, Bool.not_eq_true'] at hw
  refine ⟨calculateExtraStartDate_le hols d0, ?_,
    le_calculateExtraEndDate hols (d0 + days - 1), ?_, hw.1.1, hw.1.2, hw.2⟩
  · show d0 ≤ d0 + days - 1
    omega
  · show d0 + days - 1 - d0 + 1 = days
    omega

/-- Witness for C2: the single candidate on the horizon Mon 2025-01-06 … Fri
2025-01-10 (epoch days 20094 … 20098) with five vacation days. -/
theorem claim_C2_witness :
    (1 : Int) ≤ 5 ∧
    ((20092 : Int) ≤ 20094 ∧ (20094 : Int) ≤ 20098 ∧ (20098 : Int) ≤ 20100 ∧
     (20098 : Int) - 20094 + 1 = 5 ∧
     dayOfWeek 20094 ≠ 0 ∧ dayOfWeek 20094 ≠ 6 ∧ isHoliday [] 20094 = false) :=
  ⟨by decide,
   claim_C2 [] 20094 20098 [] 5 0 [⟨20092, 20100, 20094, 20098, 5⟩]
     ⟨20092, 20100, 20094, 20098, 5⟩ (by decide) (by decide) (by decide)⟩

/-- Claim C7 (Scenario A): with Wed 2025-01-01 a holiday, the core window Mon
2025-01-06 … Fri 2025-01-10 expands to Sat 2025-01-04 … Sun 2025-01-12, giving
9 total days off and 4 extra days. -/
theorem claim_C7 :
    dayOfWeek (daysFromCivil 2025 1 1) = 3 ∧
    dayOfWeek (daysFromCivil 2025 1 6) = 1 ∧
    calculateExtraStartDate [{ date := daysFromCivil 2025 1 1, name := "New Year" }]
      (daysFromCivil 2025 1 6) = daysFromCivil 2025 1 4 ∧
    calculateExtraEndDate [{ date := daysFromCivil 2025 1 1, name := "New Year" }]
      (daysFromCivil 2025 1 10) = daysFromCivil 2025 1 12 ∧
    calculateTotalDaysOff
      { startDate := daysFromCivil 2025 1 4, endDate := daysFromCivil 2025 1 12,
        usedStartDate := daysFromCivil 2025 1 6, usedEndDate := daysFromCivil 2025 1 10,
        daysCount := 5 } = 9 ∧
    extraDays
      { startDate := daysFromCivil 2025 1 4, endDate := daysFromCivil 2025 1 12,
        usedStartDate := daysFromCivil 2025 1 6, usedEndDate := daysFromCivil 2025 1 10,
        daysCount := 5 } = 4 := by
  decide

/-- Claim C10: the extended window is not clipped to the horizon: on the
horizon Mon 2025-01-06 … Fri 2025-01-10 with no holidays, the returned period
extends strictly past both horizon ends, and the outside days count toward the
totals. -/
theorem claim_C10 :
    handleCalculate [] (daysFromCivil 2025 1 6) (daysFromCivil 2025 1 10) 5 5 =
      [{ startDate := daysFromCivil 2025 1 4, endDate := daysFromCivil 2025 1 12,
         usedStartDate := daysFromCivil 2025 1 6, usedEndDate := daysFromCivil 2025 1 10,
         daysCount := 5 }] ∧
    daysFromCivil 2025 1 4 < daysFromCivil 2025 1 6 ∧
    daysFromCivil 2025 1 10 < daysFromCivil 2025 1 12 ∧
    calculateTotalDaysOff
      { startDate := daysFromCivil 2025 1 4, endDate := daysFromCivil 2025 1 12,
        usedStartDate := daysFromCivil 2025 1 6, usedEndDate := daysFromCivil 2025 1 10,
        daysCount := 5 } = 9 ∧
    extraDays
      { startDate := daysFromCivil 2025 1 4, endDate := daysFromCivil 2025 1 12,
        usedStartDate := daysFromCivil 2025 1 6, usedEndDate := daysFromCivil 2025 1 10,
        daysCount := 5 } = 4 := by
  decide

/-- The overlap check vacuously fails on an empty existing-period list. -/
theorem checkForOverlaps_nil (s e g : Int) : checkForOverlaps s e [] g = false := rfl

/-- Claim C1: the final output contains only periods whose `extraDays`
(extended length minus day count) is strictly positive, and adjacent periods
have non-increasing `extraDays`, with non-decreasing core start on ties. -/
theorem claim_C1 (hols : List Holiday) (s e minD maxD : Int) :
    (∀ p : VacationPeriod, extraDays p = p.endDate - p.startDate + 1 - p.daysCount) ∧
    (∀ p ∈ handleCalculate hols s e minD maxD, 0 < extraDays p) ∧
    (handleCalculate hols s e minD maxD).Chain'
      (fun a b => extraDays b ≤ extraDays a ∧
        (extraDays a = extraDays b → a.usedStartDate ≤ b.usedStartDate)) := by
  refine ⟨fun p => rfl, ?_, ?_⟩
  · intro p hp
    rw [handleCalculate] at hp
    have h1 := (mem_stableSort _ _ p).1 hp
    have h2 := (List.mem_filter.1 h1).2
    exact of_decide_eq_true h2
  · rw [handleCalculate]
    have hpw := stableSort_pairwise rankedLE rankedLE_trans
      (fun a b => (Bool.or_eq_true _ _) ▸ rankedLE_total a b)
      ((allCandidatePeriods hols s e minD maxD).filter (fun p => decide (0 < extraDays p)))
    refine List.Chain'.imp ?_ (List.Pairwise.chain' hpw)
    intro a b hab
    rcases (rankedLE_iff a b).1 hab with h | h
    · exact ⟨by omega, fun heq => by omega⟩
    · exact ⟨by omega, fun _ => h.2⟩

/-- Witness for C1 at a concrete configuration (January 2025 horizon with New
Year's Day a holiday, day counts 2 and 3). -/
theorem claim_C1_witness :
    (∀ p : VacationPeriod, extraDays p = p.endDate - p.startDate + 1 - p.daysCount) ∧
    (∀ p ∈ handleCalculate [⟨20089, "NY"⟩] 20089 20119 2 3, 0 < extraDays p) ∧
    (handleCalculate [⟨20089, "NY"⟩] 20089 20119 2 3).Chain'
      (fun a b => extraDays b ≤ extraDays a ∧
        (extraDays a = extraDays b → a.usedStartDate ≤ b.usedStartDate)) :=
  claim_C1 [⟨20089, "NY"⟩] 20089 20119 2 3

/-- Claim C4: with empty existing periods, the search collects exactly one
candidate per workday start in the horizon whose core window fits (as a
permutation of that list of starts, the output being re-sorted), and no
returned candidate's core end exceeds the horizon end. -/
theorem claim_C4 (hols : List Holiday) (s e days : Int) :
    (((findBestAvailablePeriods hols s e [] days 0).getD []).map
        (fun p => p.usedStartDate)).Perm
      ((intRange s e).filter
        (fun x => (dayOfWeek x != 0 && dayOfWeek x != 6 && !isHoliday hols x) &&
                  decide (x + days - 1 ≤ e))) ∧
    (∀ p ∈ (findBestAvailablePeriods hols s e [] days 0).getD [],
      p.usedEndDate ≤ e) := by
  have hkey := findPeriodsAux_map_eq hols e days 0 ((e - s + 1).toNat) s rfl
  constructor
  · simp only [findBestAvailablePeriods]
    by_cases hemp : (findPeriodsAux hols e [] days 0 (e - s + 1).toNat s).isEmpty
    · rw [if_pos hemp]
      rw [List.isEmpty_iff] at hemp
      rw [hemp, List.map_nil] at hkey
      rw [← hkey]
      exact List.Perm.refl _
    · rw [if_neg hemp]
      rw [Option.getD_some, List.map_map]
      have hperm := List.Perm.map (fun c : VacationPeriod × Int => c.1.usedStartDate)
        (stableSort_perm (candidateLE s) (findPeriodsAux hols e [] days 0 (e - s + 1).toNat s))
      rw [hkey] at hperm
      exact hperm
  · intro p hp
    rcases hfind : findBestAvailablePeriods hols s e [] days 0 with _ | ps
    · rw [hfind] at hp
      cases hp
    · rw [hfind, Option.getD_some] at hp
      obtain ⟨d0, _, _, _, h3, rfl⟩ :=
        findBestAvailablePeriods_mem hols s e [] days 0 ps p hfind hp
      exact h3

/-- Witness for C4 at the concrete horizon Mon 2025-01-06 … Fri 2025-01-10
with five vacation days and no holidays. -/
theorem claim_C4_witness :
    (((findBestAvailablePeriods [] 20094 20098 [] 5 0).getD []).map
        (fun p => p.usedStartDate)).Perm
      ((intRange 20094 20098).filter
        (fun x => (dayOfWeek x != 0 && dayOfWeek x != 6 && !isHoliday [] x) &&
                  decide (x + 5 - 1 ≤ 20098))) ∧
    (∀ p ∈ (findBestAvailablePeriods [] 20094 20098 [] 5 0).getD [],
      p.usedEndDate ≤ 20098) :=
  claim_C4 [] 20094 20098 5

/-- Claim C5: the search signals "no candidate" (`none`, embedding the thrown
error) exactly when no workday start fits the horizon — in particular whenever
the day count exceeds the horizon length — and the multi-day-count sweep keeps
every period of every succeeding day count, so a failing day count merely
contributes nothing. -/
theorem claim_C5 (hols : List Holiday) (s e : Int) :
    (∀ days : Int, e - s + 1 < days →
      findBestAvailablePeriods hols s e [] days 0 = none) ∧
    (∀ days : Int,
      (findBestAvailablePeriods hols s e [] days 0 = none ↔
        (intRange s e).filter
          (fun x => (dayOfWeek x != 0 && dayOfWeek x != 6 && !isHoliday hols x) &&
                    decide (x + days - 1 ≤ e)) = [])) ∧
    (∀ minD maxD dc : Int, minD ≤ dc → dc ≤ maxD →
      ∀ ps : List VacationPeriod,
        findBestAvailablePeriods hols s e [] dc 0 = some ps →
        ∀ p ∈ ps, p ∈ allCandidatePeriods hols s e minD maxD) := by
  have hiff : ∀ days : Int,
      (findBestAvailablePeriods hols s e [] days 0 = none ↔
        (intRange s e).filter
          (fun x => (dayOfWeek x != 0 && dayOfWeek x != 6 && !isHoliday hols x) &&
                    decide (x + days - 1 ≤ e)) = []) := by
    intro days
    have hkey := findPeriodsAux_map_eq hols e days 0 ((e - s + 1).toNat) s rfl
    simp only [findBestAvailablePeriods]
    by_cases hemp : (findPeriodsAux hols e [] days 0 (e - s + 1).toNat s).isEmpty
    · rw [if_pos hemp]
      rw [List.isEmpty_iff] at hemp
      rw [hemp, List.map_nil] at hkey
      rw [← hkey]
      simp
    · rw [if_neg hemp]
      constructor
      · intro h
        cases h
      · intro hfil
        rw [hfil] at hkey
        rw [List.map_eq_nil_iff] at hkey
        rw [List.isEmpty_iff] at hemp
        exact absurd hkey hemp
  refine ⟨?_, hiff, ?_⟩
  · intro days hbig
    rw [hiff days]
    rw [List.filter_eq_nil_iff]
    intro a ha
    rw [mem_intRange] at ha
    simp only [Bool.and_eq_true, decide_eq_true_eq, not_and]
    intro _
    omega
  · intro minD maxD dc h1 h2 ps hfind p hp
    rw [allCandidatePeriods]
    refine List.mem_flatMap.2 ⟨dc, mem_intRange.2 ⟨h1, h2⟩, ?_⟩
    rw [hfind]
    exact hp

/-- Witness for C5 (Scenario B): on the five-day horizon Mon 2025-01-06 … Fri
2025-01-10, day count 7 yields no candidate while day count 5 in the same
sweep (range 5 … 7) still contributes its period to the aggregate. -/
theorem claim_C5_witness :
    ((20098 : Int) - 20094 + 1 < 7 ∧
      findBestAvailablePeriods [] 20094 20098 [] 7 0 = none) ∧
    ((5 : Int) ≤ 5 ∧ (5 : Int) ≤ 7 ∧
      findBestAvailablePeriods [] 20094 20098 [] 5 0 =
        some [⟨20092, 20100, 20094, 20098, 5⟩] ∧
      (⟨20092, 20100, 20094, 20098, 5⟩ : VacationPeriod) ∈
        allCandidatePeriods [] 20094 20098 5 7) :=
  ⟨⟨by decide, (claim_C5 [] 20094 20098).1 7 (by decide)⟩,
   ⟨by decide, by decide, by decide,
    (claim_C5 [] 20094 20098).2.2 5 7 5 (by decide) (by decide)
      [⟨20092, 20100, 20094, 20098, 5⟩] (by decide)
      ⟨20092, 20100, 20094, 20098, 5⟩ (by decide)⟩⟩

/-- Membership in the flattened holiday list, characterized by the provider
spans. -/
theorem mem_buildHolidays (provider : Int → List HolidaySpan) (yearFrom yearTo : Int)
    (h : Holiday) :
    h ∈ buildHolidays provider yearFrom yearTo ↔
      ∃ y : Int, yearFrom ≤ y ∧ y ≤ yearTo ∧
        ∃ sp ∈ provider y, sp.startDay ≤ h.date ∧ h.date < sp.endDay ∧
          sp.name = h.name := by
  simp only [buildHolidays, List.mem_flatMap, List.mem_map, mem_intRange, mem_spanDays]
  constructor
  · rintro ⟨y, ⟨hy1, hy2⟩, sp, hsp, x, ⟨hx1, hx2⟩, heq⟩
    subst heq
    exact ⟨y, hy1, hy2, sp, hsp, hx1, hx2, rfl⟩
  · rintro ⟨y, hy1, hy2, sp, hsp, hd1, hd2, hnm⟩
    refine ⟨y, ⟨hy1, hy2⟩, sp, hsp, h.date, ⟨hd1, hd2⟩, ?_⟩
    rw [hnm]

/-- Claim C6: the holiday index flattens every provider span (end exclusive)
into one record per covered day per year of the span, across all years of the
horizon, and a date is classified as a holiday exactly when some flattened
record carries its day. -/
theorem claim_C6 (provider : Int → List HolidaySpan) (yearFrom yearTo d : Int)
    (nm : String) :
    (({ date := d, name := nm } : Holiday) ∈ buildHolidays provider yearFrom yearTo ↔
      ∃ y : Int, yearFrom ≤ y ∧ y ≤ yearTo ∧
        ∃ sp ∈ provider y, sp.startDay ≤ d ∧ d < sp.endDay ∧ sp.name = nm) ∧
    (isHoliday (buildHolidays provider yearFrom yearTo) d = true ↔
      ∃ y : Int, yearFrom ≤ y ∧ y ≤ yearTo ∧
        ∃ sp ∈ provider y, sp.startDay ≤ d ∧ d < sp.endDay) := by
  constructor
  · exact mem_buildHolidays provider yearFrom yearTo ⟨d, nm⟩
  · rw [isHoliday, List.any_eq_true]
    constructor
    · rintro ⟨h, hmem, hbeq⟩
      rw [beq_iff_eq] at hbeq
      obtain ⟨y, hy1, hy2, sp, hsp, hd1, hd2, _⟩ :=
        (mem_buildHolidays provider yearFrom yearTo h).1 hmem
      exact ⟨y, hy1, hy2, sp, hsp, by omega, by omega⟩
    · rintro ⟨y, hy1, hy2, sp, hsp, hd1, hd2⟩
      refine ⟨⟨d, sp.name⟩,
        (mem_buildHolidays provider yearFrom yearTo ⟨d, sp.name⟩).2
          ⟨y, hy1, hy2, sp, hsp, hd1, hd2, rfl⟩, ?_⟩
      exact beq_self_eq_true d

/-- Witness for C6: a single one-day span (New Year 2025) queried over the
single year 2025. -/
theorem claim_C6_witness :
    (({ date := 20089, name := "NY" } : Holiday) ∈
        buildHolidays (fun _ => [⟨20089, 20090, "NY"⟩]) 2025 2025 ↔
      ∃ y : Int, 2025 ≤ y ∧ y ≤ 2025 ∧
        ∃ sp ∈ [(⟨20089, 20090, "NY"⟩ : HolidaySpan)],
          sp.startDay ≤ 20089 ∧ (20089 : Int) < sp.endDay ∧ sp.name = "NY") ∧
    (isHoliday (buildHolidays (fun _ => [⟨20089, 20090, "NY"⟩]) 2025 2025) 20089 = true ↔
      ∃ y : Int, 2025 ≤ y ∧ y ≤ 2025 ∧
        ∃ sp ∈ [(⟨20089, 20090, "NY"⟩ : HolidaySpan)],
          sp.startDay ≤ 20089 ∧ (20089 : Int) < sp.endDay) :=
  claim_C6 (fun _ => [⟨20089, 20090, "NY"⟩]) 2025 2025 20089 "NY"

/-- Claim C8: a candidate is rejected by the overlap check exactly when its
`minGap`-buffered window intersects some existing period, the check never
fires on an empty existing-period list (as in the top-level sweep, which
passes `[]` and gap `0`), and with no existing periods the scan is entirely
independent of the gap parameter. -/
theorem claim_C8 :
    (∀ (s e : Int) (ex : List VacationPeriod) (g : Int),
      checkForOverlaps s e ex g = true ↔
        ∃ p ∈ ex, s - g ≤ p.endDate ∧ p.startDate ≤ e + g) ∧
    (∀ s e g : Int, checkForOverlaps s e [] g = false) ∧
    (∀ (hols : List Holiday) (maxD days gap : Int) (n : Nat) (d : Int),
      findPeriodsAux hols maxD [] days gap n d =
        findPeriodsAux hols maxD [] days 0 n d) := by
  refine ⟨?_, checkForOverlaps_nil, ?_⟩
  · intro s e ex g
    simp only [checkForOverlaps, List.any_eq_true, Bool.and_eq_true,
      decide_eq_true_eq, ge_iff_le]
  · intro hols maxD days gap n
    induction n with
    | zero => intro d; rfl
    | succ n ih =>
      intro d
      simp only [findPeriodsAux]
      by_cases h1 : d ≤ maxD
      · rw [if_pos h1, if_pos h1]
        by_cases h2 : (dayOfWeek d != 0 && dayOfWeek d != 6 && !isHoliday hols d) = true
        · rw [if_pos h2, if_pos h2]
          by_cases h3 : d + days - 1 > maxD
          · rw [if_pos h3, if_pos h3]
          · rw [if_neg h3, if_neg h3]
            rw [if_neg (by rw [checkForOverlaps_nil]; exact Bool.false_ne_true),
              if_neg (by rw [checkForOverlaps_nil]; exact Bool.false_ne_true)]
            rw [ih (d + 1)]
        · rw [if_neg h2, if_neg h2]
          exact ih (d + 1)
      · rw [if_neg h1, if_neg h1]

/-- Witness for C8: a concrete buffered intersection. -/
theorem claim_C8_witness :
    checkForOverlaps 5 10 [⟨0, 6, 1, 5, 2⟩] 1 = true :=
  (claim_C8.1 5 10 [⟨0, 6, 1, 5, 2⟩] 1).2
    ⟨⟨0, 6, 1, 5, 2⟩, by decide, by decide, by decide⟩

end VacationCalc
